import Mathlib

/-!
Verification development for the ground-renderer / obstacle kernel
(`game_logic.c`, `ground_renderer.c`).

Modelling conventions:
* C `float` values are modelled as exact rationals (`ℚ`); decimal literals
  (`0.5f`, `1.2f`, `0.1f`, `0.0001f`, the `M_PI` constant) are taken at their
  written decimal value.
* The libm calls `cosf`, `sinf`, `atan2f` are modelled by an abstract
  `TrigModel` parameter: every theorem about the visibility processor holds
  for an arbitrary interpretation of those three functions.
* C `int` is modelled as `ℤ` (or `ℕ` for loop counters and sizes); the C cast
  `(int)x` on a float is truncation toward zero (`truncQ`), and the C `%`
  operator on ints is truncated remainder (`Int.tmod`).
* Pixel buffers are modelled as functions `ℕ → ℕ` (byte index to byte value);
  the quality rasterizer is modelled as the ordered list of pixel writes it
  performs, the performance rasterizer as the ordered list of rows it leaves
  in the destination buffer.
* The module-level registry (`obstacles` + `obstacle_count`) is modelled as a
  `List Obstacle`; the scratch array `processed` as a `List ProcessedObstacle`.
-/

/-- C cast `(int)q` for a float value: truncation toward zero. -/
def truncQ (q : ℚ) : ℤ := if 0 ≤ q then ⌊q⌋ else ⌈q⌉

/-- `fast_mod` from the source: truncated remainder, then one conditional
correction of a negative result. -/
def fastMod (v m : ℤ) : ℤ :=
  let r := Int.tmod v m
  if r < 0 then r + m else r

/-- An RGBA pixel as written by the rasterizers. -/
structure QPixel where
  r : ℕ
  g : ℕ
  b : ℕ
  a : ℕ
deriving DecidableEq

/-- The scalar inputs shared by both rasterizer entry points, together with
the source map buffer (`map_data`, byte-indexed). -/
structure GroundView where
  ground_w : ℕ
  ground_h : ℕ
  map_w : ℕ
  map_h : ℕ
  camera_x : ℚ
  camera_y : ℚ
  cos_a : ℚ
  sin_a : ℚ
  sh_focal : ℚ
  tan_f : ℚ
  map_data : ℕ → ℕ

/-- `dist = sh_focal / i` with `i = y + 1`. -/
def rowDist (v : GroundView) (y : ℕ) : ℚ := v.sh_focal / ((y : ℚ) + 1)

/-- `lat = dist * tan_f`. -/
def rowLat (v : GroundView) (y : ℕ) : ℚ := rowDist v y * v.tan_f

/-- Left scanline endpoint, x component (`lX`). -/
def rowLX (v : GroundView) (y : ℕ) : ℚ :=
  v.camera_x + rowDist v y * v.cos_a - rowLat v y * v.sin_a

/-- Left scanline endpoint, y component (`lY`). -/
def rowLY (v : GroundView) (y : ℕ) : ℚ :=
  v.camera_y + rowDist v y * v.sin_a + rowLat v y * v.cos_a

/-- Right scanline endpoint, x component (`rX`). -/
def rowRX (v : GroundView) (y : ℕ) : ℚ :=
  v.camera_x + rowDist v y * v.cos_a + rowLat v y * v.sin_a

/-- Right scanline endpoint, y component (`rY`). -/
def rowRY (v : GroundView) (y : ℕ) : ℚ :=
  v.camera_y + rowDist v y * v.sin_a - rowLat v y * v.cos_a

/-- Per-column world-x increment `dx = (rX - lX) * (1 / ground_w)`. -/
def rowDX (v : GroundView) (y : ℕ) : ℚ :=
  (rowRX v y - rowLX v y) * (1 / (v.ground_w : ℚ))

/-- Per-column world-y increment `dy = (rY - lY) * (1 / ground_w)`. -/
def rowDY (v : GroundView) (y : ℕ) : ℚ :=
  (rowRY v y - rowLY v y) * (1 / (v.ground_w : ℚ))

/-- One source sample: wrap the truncated world coordinate with `fast_mod`
into the map, read the RGB triplet at `(my * map_w + mx) * 4`, force alpha
to 255. -/
def sampleQ (v : GroundView) (wx wy : ℚ) : QPixel :=
  let mx := fastMod (truncQ wx) (v.map_w : ℤ)
  let my := fastMod (truncQ wy) (v.map_h : ℤ)
  let mi := ((my * (v.map_w : ℤ) + mx) * 4).toNat
  ⟨v.map_data mi, v.map_data (mi + 1), v.map_data (mi + 2), 255⟩

/-- `render_ground_quality`, modelled as the ordered list of pixel writes
(pixel index `y * ground_w + x`, written RGBA value).  The running positions
`cur_x`, `cur_y` (initialised to `lX`, `lY` and incremented by `dx`, `dy`
once per column) are written in closed form `lX + x*dx`, which they equal
exactly in exact rational arithmetic. -/
def render_ground_quality (v : GroundView) : List (ℕ × QPixel) :=
  (List.range v.ground_h).flatMap fun y =>
    (List.range v.ground_w).map fun x =>
      (y * v.ground_w + x,
        sampleQ v (rowLX v y + (x : ℚ) * rowDX v y) (rowLY v y + (x : ℚ) * rowDY v y))

/-- The level-of-detail inputs of `render_ground_performance`. -/
structure StepCtl where
  base_res : ℤ
  dynamic_res : Bool
  layered_res : Bool
  state_move : Bool
  state_rot : Bool
  tilt : ℚ

/-- The sampling step chosen for destination row `y` by
`render_ground_performance`: three bands by `i = y + 1` against
`t1 = ground_h * 0.1` and `t2 = ground_h * (0.1 + 0.5)`, the decision table
on `dynamic_res && layered_res`, `effective_rot = state_rot || |tilt| > 0.0001`
and `state_move`, followed by the clamp `step < 1 ? 1 : step`. -/
def rowStep (v : GroundView) (c : StepCtl) (y : ℕ) : ℕ :=
  let t1 : ℚ := (v.ground_h : ℚ) * 0.1
  let t2 : ℚ := (v.ground_h : ℚ) * (0.1 + 0.5)
  let effective_rot : Bool := c.state_rot || decide (|c.tilt| > 0.0001)
  let i : ℚ := (y : ℚ) + 1
  let s : ℤ :=
    if i ≤ t1 then
      (if c.dynamic_res && c.layered_res then (if effective_rot then 5 else 4) else c.base_res)
    else if i ≤ t2 then
      (if c.dynamic_res && c.layered_res then
        (if effective_rot then 5 else if c.state_move then 4 else 2) else c.base_res)
    else
      (if c.dynamic_res && c.layered_res then
        (if effective_rot then 8 else if c.state_move then 6 else 2) else c.base_res)
  (max s 1).toNat

/-- Modelled from the spec (§4.1 table): the step the spec's words assign to a
row — bands "first 10% / next 50% / remaining 40%" of `dstH` by row index,
table keyed on both flags, rotating-or-tilting, and moving, clamped to a
minimum of 1.  Used only to compare against `rowStep`. -/
def specStep (v : GroundView) (c : StepCtl) (y : ℕ) : ℕ :=
  let rotOrTilt : Bool := c.state_rot || decide (|c.tilt| > 1 / 10000)
  let inFar : Prop := ((y : ℚ) + 1) ≤ (v.ground_h : ℚ) * (1 / 10)
  let inMid : Prop := ((y : ℚ) + 1) ≤ (v.ground_h : ℚ) * (6 / 10)
  let s : ℤ :=
    if c.dynamic_res && c.layered_res then
      if inFar then (if rotOrTilt then 5 else 4)
      else if inMid then (if rotOrTilt then 5 else if c.state_move then 4 else 2)
      else (if rotOrTilt then 8 else if c.state_move then 6 else 2)
    else c.base_res
  (max s 1).toNat

/-- A row recomputed with horizontal step `step`: every pixel of a
`step`-wide block receives the sample taken at the block's start column
(the running position advances by `dx*step`, `dy*step` per block, so block
`x / step` samples at `lX + (x/step)*step*dx`). -/
def perfRow (v : GroundView) (y step : ℕ) : List QPixel :=
  (List.range v.ground_w).map fun x =>
    let bx : ℕ := x / step * step
    sampleQ v (rowLX v y + (bx : ℚ) * rowDX v y) (rowLY v y + (bx : ℚ) * rowDY v y)

/-- Whether `render_ground_performance` recomputes row `y` (row 0, or a row
index that is a multiple of its band's step). -/
def isComputedRow (v : GroundView) (c : StepCtl) (y : ℕ) : Prop :=
  y = 0 ∨ y % rowStep v c y = 0

instance (v : GroundView) (c : StepCtl) (y : ℕ) : Decidable (isComputedRow v c y) := by
  unfold isComputedRow; infer_instance

/-- Index of the most recently recomputed row at or above `y`. -/
def lastComp (v : GroundView) (c : StepCtl) : ℕ → ℕ
  | 0 => 0
  | y + 1 => if isComputedRow v c (y + 1) then y + 1 else lastComp v c y

/-- One iteration of the row loop of `render_ground_performance`: the state
is (rows emitted so far, `last_calculated_y`).  A skipped row (`y > 0`, not a
multiple of its step, with a valid `last_calculated_y`) copies the row at
`last_calculated_y`; otherwise the row is recomputed and `last_calculated_y`
updated. -/
def perfStep (v : GroundView) (c : StepCtl) (acc : List (List QPixel) × ℤ) (y : ℕ) :
    List (List QPixel) × ℤ :=
  let step := rowStep v c y
  if y ≠ 0 ∧ y % step ≠ 0 ∧ 0 ≤ acc.2 then
    (acc.1 ++ [acc.1.getD acc.2.toNat []], acc.2)
  else
    (acc.1 ++ [perfRow v y step], (y : ℤ))

/-- `render_ground_performance`, modelled as the final list of destination
rows (`last_calculated_y` starts at `-1`). -/
def render_ground_performance (v : GroundView) (c : StepCtl) : List (List QPixel) :=
  ((List.range v.ground_h).foldl (perfStep v c) (([], -1) : List (List QPixel) × ℤ)).1

/-- `MAX_OBSTACLES` from the source. -/
def MAX_OBSTACLES : ℕ := 10000

/-- `MAX_PROCESSED` from the source. -/
def MAX_PROCESSED : ℕ := 20000

/-- The `M_PI` constant defined in the source. -/
def ratPi : ℚ := 3.14159265358979323846

/-- An obstacle record as stored by the registry. -/
structure Obstacle where
  x : ℚ
  y : ℚ
  radius : ℚ
  height : ℚ
  id : ℤ
  ty : ℤ
deriving DecidableEq

/-- The obstacle decoded from flat 6-float record `i` of the input buffer of
`add_obstacles_batch` (`x, y, radius, height, (int)id, (int)type`). -/
def obstacleAt (data : ℕ → ℚ) (i : ℕ) : Obstacle :=
  { x := data (i * 6), y := data (i * 6 + 1), radius := data (i * 6 + 2),
    height := data (i * 6 + 3), id := truncQ (data (i * 6 + 4)),
    ty := truncQ (data (i * 6 + 5)) }

/-- The loop of `add_obstacles_batch`: `n` input records left, next input
index `i`, current registry; stops early when the registry is full.  Returns
the new registry and the number of records actually appended. -/
def addBatchAux (data : ℕ → ℚ) : ℕ → ℕ → List Obstacle → List Obstacle × ℕ
  | 0, _, reg => (reg, 0)
  | n + 1, i, reg =>
    if reg.length < MAX_OBSTACLES then
      let rec1 := addBatchAux data n (i + 1) (reg ++ [obstacleAt data i])
      (rec1.1, rec1.2 + 1)
    else (reg, 0)

/-- `add_obstacles_batch(data, count)` on a registry state. -/
def add_obstacles_batch (reg : List Obstacle) (data : ℕ → ℚ) (count : ℕ) :
    List Obstacle × ℕ :=
  addBatchAux data count 0 reg

/-- `init_obstacles`: the registry after a reset. -/
def init_obstacles : List Obstacle := []

/-- `get_obstacle_count`. -/
def get_obstacle_count (reg : List Obstacle) : ℕ := reg.length

/-- The single half-period toroidal wrap correction applied to a raw
coordinate delta (`if (d > m/2) d -= m; else if (d < -m/2) d += m;`). -/
def wrapDelta (d m : ℚ) : ℚ :=
  if d > m / 2 then d - m else if d < -(m / 2) then d + m else d

/-- `check_collision`: scan the registry, skip obstacles the player can fly
over (`player_height >= height`), otherwise wrap-correct the displacement
from the obstacle to the proposed position and test squared distance against
the squared combined radius.  `player_x`/`player_y` are unused, as in the
source. -/
def check_collision (reg : List Obstacle)
    (player_x player_y player_radius player_height new_x new_y map_width map_height : ℚ) :
    Bool :=
  reg.any fun obs =>
    if player_height ≥ obs.height then false
    else
      let dx := wrapDelta (new_x - obs.x) map_width
      let dy := wrapDelta (new_y - obs.y) map_height
      decide (dx * dx + dy * dy <
        (obs.radius + player_radius) * (obs.radius + player_radius))

/-- Abstract interpretation of the libm calls used by the visibility
processor. -/
structure TrigModel where
  cos : ℚ → ℚ
  sin : ℚ → ℚ
  atan2 : ℚ → ℚ → ℚ

/-- The scalar arguments of `process_visible_obstacles` (`camera_z` is
accepted and unused, as in the source). -/
structure VisParams where
  camera_x : ℚ
  camera_y : ℚ
  camera_z : ℚ
  camera_angle : ℚ
  player_x : ℚ
  player_y : ℚ
  player_height : ℚ
  fov : ℚ
  max_render_distance : ℚ
  map_width : ℚ
  map_height : ℚ

/-- A `ProcessedObstacle` record (the C `is_between` int, always 0 or 1, is
modelled as a `Bool`). -/
structure ProcessedObstacle where
  obstacle_id : ℤ
  is_between : Bool
  ty : ℤ
  dx : ℚ
  dy : ℚ
  dist_sq : ℚ
deriving DecidableEq

/-- `player_t`: the player's camera-relative position after one toroidal wrap
correction per axis, projected onto the camera forward axis. -/
def playerT (T : TrigModel) (p : VisParams) : ℚ :=
  wrapDelta (p.player_x - p.camera_x) p.map_width * T.cos p.camera_angle +
  wrapDelta (p.player_y - p.camera_y) p.map_height * T.sin p.camera_angle

/-- `tiles_x = (int)ceilf(search_radius / map_width)` with
`search_radius = max_render_distance * 1.2`. -/
def tilesX (p : VisParams) : ℤ := ⌈p.max_render_distance * 1.2 / p.map_width⌉

/-- `tiles_y = (int)ceilf(search_radius / map_height)`. -/
def tilesY (p : VisParams) : ℤ := ⌈p.max_render_distance * 1.2 / p.map_height⌉

/-- One toroidal image of an obstacle: the obstacle together with a tile
offset `(tx, ty)`. -/
structure TileCand where
  obs : Obstacle
  tx : ℤ
  ty : ℤ
deriving DecidableEq

/-- `dx = (obs->x + tx * map_width) - camera_x`. -/
def candDx (p : VisParams) (c : TileCand) : ℚ :=
  c.obs.x + (c.tx : ℚ) * p.map_width - p.camera_x

/-- `dy = (obs->y + ty * map_height) - camera_y`. -/
def candDy (p : VisParams) (c : TileCand) : ℚ :=
  c.obs.y + (c.ty : ℚ) * p.map_height - p.camera_y

/-- `dist_sq = dx*dx + dy*dy`. -/
def candDistSq (p : VisParams) (c : TileCand) : ℚ :=
  candDx p c * candDx p c + candDy p c * candDy p c

/-- `obstacle_t = dx*cos_a + dy*sin_a`: projection of the image displacement
onto the camera forward axis. -/
def candT (T : TrigModel) (p : VisParams) (c : TileCand) : ℚ :=
  candDx p c * T.cos p.camera_angle + candDy p c * T.sin p.camera_angle

/-- The angular difference computed by the source: absolute difference of
`atan2(dy, dx)` and the camera angle, folded once at `M_PI`
(`if (angle_diff > M_PI) angle_diff = 2*M_PI - angle_diff`) — the shortest-arc
difference with wrap at plus/minus pi. -/
def angleDiff (T : TrigModel) (p : VisParams) (c : TileCand) : ℚ :=
  let a := |T.atan2 (candDy p c) (candDx p c) - p.camera_angle|
  if a > ratPi then 2 * ratPi - a else a

/-- The three nested filter conditions under which the source emits a record
for a tile image: squared distance below `max_render_distance²`, angular
difference at most `fov/2 + 0.5`, forward projection above `0.5`. -/
def acceptCand (T : TrigModel) (p : VisParams) (c : TileCand) : Bool :=
  decide (candDistSq p c < p.max_render_distance * p.max_render_distance) &&
  (decide (angleDiff T p c ≤ p.fov / 2 + 0.5) &&
    decide (candT T p c > 0.5))

/-- The record the source stores for an accepted tile image. -/
def mkRec (T : TrigModel) (p : VisParams) (c : TileCand) : ProcessedObstacle :=
  { obstacle_id := c.obs.id
    dx := candDx p c
    dy := candDy p c
    dist_sq := candDistSq p c
    is_between := decide (p.player_height < c.obs.height ∧
      candT T p c > 0.5 ∧ candT T p c < playerT T p)
    ty := c.obs.ty }

/-- The inclusive integer range `[-t, t]` in iteration order. -/
def offsetRange (t : ℤ) : List ℤ :=
  (List.range (2 * t + 1).toNat).map fun k => -t + (k : ℤ)

/-- The candidate tile images in scan order: obstacles in registry order,
`tx` in `[-tiles_x, tiles_x]`, `ty` in `[-tiles_y, tiles_y]` innermost. -/
def tileCands (p : VisParams) (reg : List Obstacle) : List TileCand :=
  reg.flatMap fun o =>
    (offsetRange (tilesX p)).flatMap fun tx =>
      (offsetRange (tilesY p)).map fun ty => ⟨o, tx, ty⟩

/-- The scan loop: emit a record per accepted candidate; when an accepted
candidate arrives with no capacity left (`processed_count >= MAX_PROCESSED`),
stop the whole scan (the `goto sort_and_return`). -/
def collectVisible (T : TrigModel) (p : VisParams) : ℕ → List TileCand → List ProcessedObstacle
  | _, [] => []
  | k, c :: cs =>
    if acceptCand T p c then
      match k with
      | 0 => []
      | k' + 1 => mkRec T p c :: collectVisible T p k' cs
    else collectVisible T p k cs

/-- One bubble-sort pass with at most `m` comparisons: adjacent records are
swapped when the left one is strictly closer (`dist_sq` strictly smaller),
moving a farthest-first order into place. -/
def bpass : ℕ → List ProcessedObstacle → List ProcessedObstacle
  | 0, l => l
  | _, [] => []
  | _ + 1, [a] => [a]
  | m + 1, a :: b :: t =>
    if a.dist_sq < b.dist_sq then b :: bpass m (a :: t) else a :: bpass m (b :: t)

/-- The outer bubble-sort loop: pass `i` of the source performs
`processed_count - i - 1` comparisons, so the bound counts down from
`n - 1` to `1`. -/
def bsortAux : ℕ → List ProcessedObstacle → List ProcessedObstacle
  | 0, l => l
  | k + 1, l => bsortAux k (bpass (k + 1) l)

/-- The in-place bubble sort of the source (descending by `dist_sq`). -/
def bsort (l : List ProcessedObstacle) : List ProcessedObstacle :=
  bsortAux (l.length - 1) l

/-- `process_visible_obstacles`, modelled as the record list written to the
output buffer (the returned count is its length).  `out_buffer_ok` models
the `output_buffer != NULL` check; a null buffer or an empty registry yields
the empty result. -/
def process_visible_obstacles (T : TrigModel) (out_buffer_ok : Bool)
    (reg : List Obstacle) (p : VisParams) : List ProcessedObstacle :=
  if out_buffer_ok = false then []
  else if reg.length = 0 then []
  else bsort (collectVisible T p MAX_PROCESSED (tileCands p reg))

/-- The module-level mutable state of the obstacle subsystem: the registry
(`obstacles` + `obstacle_count`) and the scratch record buffer (`processed`). -/
structure GameState where
  obstacles : List Obstacle
  scratch : List ProcessedObstacle

/-- `init_obstacles` as a state transformer: clears the registry only. -/
def initObstaclesSt (s : GameState) : GameState :=
  { s with obstacles := init_obstacles }

/-- `add_obstacles_batch` as a state transformer: appends into the registry
and returns the inserted count. -/
def addObstaclesBatchSt (data : ℕ → ℚ) (count : ℕ) (s : GameState) : GameState × ℕ :=
  let r := add_obstacles_batch s.obstacles data count
  ({ s with obstacles := r.1 }, r.2)

/-- `process_visible_obstacles` as a state transformer: reads the registry,
writes only the scratch record buffer, returns the record count. -/
def processVisibleSt (T : TrigModel) (out_buffer_ok : Bool) (p : VisParams)
    (s : GameState) : GameState × ℕ :=
  let out := process_visible_obstacles T out_buffer_ok s.obstacles p
  ({ s with scratch := out }, out.length)

/-- `check_collision` as a state transformer: reads the registry, writes
nothing. -/
def checkCollisionSt
    (player_x player_y player_radius player_height new_x new_y map_width map_height : ℚ)
    (s : GameState) : GameState × Bool :=
  (s, check_collision s.obstacles player_x player_y player_radius player_height
    new_x new_y map_width map_height)

/-- A concrete 1x1 view used to exercise the rasterizer theorems. -/
def qvDemo : GroundView := ⟨1, 1, 1, 1, 0, 0, 1, 0, 1, 0, fun _ => 9⟩

/-- A concrete interpretation of the trig primitives used to exercise the
visibility theorems. -/
def trigDemo : TrigModel := ⟨fun _ => 1, fun _ => 0, fun _ _ => 0⟩

/-- Concrete visibility arguments: camera at the origin with heading angle 0,
player at the origin with height 0, fov 2, render distance 5, 10x10 map. -/
def visDemo : VisParams := ⟨0, 0, 0, 0, 0, 0, 0, 2, 5, 10, 10⟩

/-- A one-obstacle registry used to exercise the visibility theorems. -/
def regDemo : List Obstacle := [⟨3, 0, 1, 1, 1, 0⟩]

/-! ## Helper lemmas -/

theorem fastMod_spec (a m : ℤ) (hm : 0 < m) :
    0 ≤ fastMod a m ∧ fastMod a m < m ∧ fastMod a m ≡ a [ZMOD m] := by
  have hub : Int.tmod a m < m := Int.tmod_lt_of_pos a hm
  have hneg : Int.tmod (-a) m = -Int.tmod a m := by
    rw [Int.tmod_def, Int.tmod_def, Int.neg_tdiv]; ring1
  have hlb : -m < Int.tmod a m := by
    have h2 := Int.tmod_lt_of_pos (-a) hm
    rw [hneg] at h2
    linarith
  have hcong : Int.tmod a m ≡ a [ZMOD m] := by
    rw [Int.modEq_iff_dvd]
    exact ⟨a.tdiv m, by have h := Int.tmod_add_tdiv a m; linarith⟩
  simp only [fastMod]
  by_cases hr : Int.tmod a m < 0
  · rw [if_pos hr]
    refine ⟨by linarith, by linarith, ?_⟩
    exact (Int.modEq_iff_dvd.mpr ⟨-1, by ring1⟩).trans hcong
  · rw [if_neg hr]
    exact ⟨by linarith, hub, hcong⟩

theorem range_mul_flatMap (h w : ℕ) :
    ((List.range h).flatMap fun y => (List.range w).map fun x => y * w + x) =
      List.range (h * w) := by
  induction h with
  | zero => simp
  | succ n ih =>
    rw [List.range_succ, List.flatMap_append, ih, List.flatMap_cons, List.flatMap_nil,
      List.append_nil, Nat.succ_mul, List.range_add]


theorem wrapDelta_shift_sq (d m : ℚ) (hm : 0 < m) (hd : |d| ≤ m / 2) :
    wrapDelta (d + m) m * wrapDelta (d + m) m = wrapDelta d m * wrapDelta d m := by
  rw [abs_le] at hd
  unfold wrapDelta
  split_ifs with h1 h2 h3 h4 h5 h6 h7 h8 h9 <;>
    first
      | ring1
      | (exfalso; linarith)
      | (have hde : d = -(m / 2) := by linarith
         rw [hde]; ring1)

theorem addBatchAux_spec (data : ℕ → ℚ) :
    ∀ (count i : ℕ) (reg : List Obstacle),
      addBatchAux data count i reg =
        (reg ++ (List.range (min count (MAX_OBSTACLES - reg.length))).map
            (fun k => obstacleAt data (i + k)),
          min count (MAX_OBSTACLES - reg.length)) := by
  intro count
  induction count with
  | zero => intro i reg; simp [addBatchAux]
  | succ n ih =>
    intro i reg
    by_cases h : reg.length < MAX_OBSTACLES
    · have hmin : min (n + 1) (MAX_OBSTACLES - reg.length) =
          min n (MAX_OBSTACLES - (reg.length + 1)) + 1 := by
        simp only [MAX_OBSTACLES] at h ⊢
        omega
      have hsplit : (List.range (min n (MAX_OBSTACLES - (reg.length + 1)) + 1)).map
            (fun k => obstacleAt data (i + k)) =
          obstacleAt data i ::
            (List.range (min n (MAX_OBSTACLES - (reg.length + 1)))).map
              (fun k => obstacleAt data (i + 1 + k)) := by
        rw [List.range_succ_eq_map, List.map_cons, List.map_map]
        refine congrArg₂ _ (by rw [Nat.add_zero]) ?_
        refine List.map_congr_left fun k _ => ?_
        simp only [Function.comp_apply]
        congr 1
        omega
      simp only [addBatchAux, if_pos h, ih (i + 1), List.length_append,
        List.length_singleton, hmin, hsplit, List.append_assoc, List.singleton_append]
    · have h0 : MAX_OBSTACLES - reg.length = 0 := by
        simp only [MAX_OBSTACLES] at h ⊢
        omega
      simp [addBatchAux, if_neg h, h0]

/-! ## Claim theorems: collision detector, registry, state frame -/

/-- Claim C4: an obstacle whose height is at most the player's height never
contributes to a reported collision — removing it from the registry leaves
the result of `check_collision` unchanged, whatever the proposed position,
the obstacle's position, and the radii are. -/
theorem check_collision_flyover (reg1 reg2 : List Obstacle) (o : Obstacle)
    (px py pr ph nx ny mw mh : ℚ) (h : o.height ≤ ph) :
    check_collision (reg1 ++ o :: reg2) px py pr ph nx ny mw mh =
      check_collision (reg1 ++ reg2) px py pr ph nx ny mw mh := by
  unfold check_collision
  simp only [List.any_append, List.any_cons]
  rw [if_pos (show ph ≥ o.height from h)]
  simp

/-- Witness for `check_collision_flyover`: a concrete flyover obstacle that
overlaps the proposed position and still changes nothing. -/
theorem check_collision_flyover_app :
    ((⟨0, 0, 5, 0, 1, 0⟩ : Obstacle).height ≤ (1 : ℚ)) ∧
      check_collision ([] ++ (⟨0, 0, 5, 0, 1, 0⟩ : Obstacle) :: []) 0 0 1 1 0 0 10 10 =
        check_collision ([] ++ []) 0 0 1 1 0 0 10 10 :=
  ⟨by norm_num, check_collision_flyover [] [] ⟨0, 0, 5, 0, 1, 0⟩ 0 0 1 1 0 0 10 10 (by norm_num)⟩

/-- Claim C5, counterexample: with map width 10, registry
`[{x:0,y:0,r:4,h:10}, {x:6,y:0,r:1,h:0}]`, player radius 1 and height 5,
`check_collision` at the second obstacle's position `(6,0)` reports a
collision (with the first obstacle, wrapped delta `-4`), but at the full-wrap
image `(16,0)` it reports none (the single half-period correction turns the
raw delta 16 into 6, not `-4`), so the claimed wrap symmetry fails on the
code. -/
theorem check_collision_wrap_cex :
    ¬ (check_collision [⟨0, 0, 4, 10, 1, 0⟩, ⟨6, 0, 1, 0, 2, 0⟩] 0 0 1 5 (6 + 10) 0 10 10 =
        check_collision [⟨0, 0, 4, 10, 1, 0⟩, ⟨6, 0, 1, 0, 2, 0⟩] 0 0 1 5 6 0 10 10) := by
  norm_num [check_collision, wrapDelta]

/-- Claim C5 as amended: the full-period wrap symmetry of `check_collision`
holds for a positive map width provided every registered obstacle lies within
half a map width (in x) of the reference obstacle, so that the single
half-period correction of the source undoes the added period exactly. -/
theorem check_collision_wrap_symm (reg : List Obstacle) (o : Obstacle)
    (px py pr ph mw mh : ℚ) (hmw : 0 < mw)
    (hnear : ∀ o2 ∈ reg, |o.x - o2.x| ≤ mw / 2) :
    check_collision reg px py pr ph (o.x + mw) o.y mw mh =
      check_collision reg px py pr ph o.x o.y mw mh := by
  unfold check_collision
  induction reg with
  | nil => rfl
  | cons o2 t ih =>
    simp only [List.any_cons]
    rw [ih (fun a ha => hnear a (List.mem_cons_of_mem o2 ha))]
    congr 1
    by_cases hskip : ph ≥ o2.height
    · rw [if_pos hskip, if_pos hskip]
    · rw [if_neg hskip, if_neg hskip]
      have harg : o.x + mw - o2.x = (o.x - o2.x) + mw := by ring
      rw [harg, wrapDelta_shift_sq (o.x - o2.x) mw hmw (hnear o2 (List.mem_cons_self o2 t))]

/-- Witness for `check_collision_wrap_symm` at a concrete registry. -/
theorem check_collision_wrap_symm_app :
    (0 : ℚ) < 10 ∧
      check_collision [⟨3, 0, 2, 9, 1, 0⟩] 0 0 1 5 (3 + 10) 0 10 10 =
        check_collision [⟨3, 0, 2, 9, 1, 0⟩] 0 0 1 5 3 0 10 10 :=
  ⟨by norm_num,
    check_collision_wrap_symm [⟨3, 0, 2, 9, 1, 0⟩] ⟨3, 0, 2, 9, 1, 0⟩ 0 0 1 5 10 10
      (by norm_num)
      (by
        intro o2 ho2
        rw [List.mem_singleton] at ho2
        subst ho2
        norm_num)⟩

/-- Claim C9: `add_obstacles_batch` appends exactly
`min count (MAX_OBSTACLES - n)` records, in input order, returns that
number, and the registry count afterwards is the old count plus the returned
value; insertions beyond `MAX_OBSTACLES` are dropped, never stored. -/
theorem add_obstacles_batch_bounds (reg : List Obstacle) (data : ℕ → ℚ) (count : ℕ) :
    (add_obstacles_batch reg data count).2 =
        min count (MAX_OBSTACLES - get_obstacle_count reg) ∧
      (add_obstacles_batch reg data count).1 =
        reg ++ (List.range (min count (MAX_OBSTACLES - get_obstacle_count reg))).map
          (obstacleAt data) ∧
      get_obstacle_count (add_obstacles_batch reg data count).1 =
        get_obstacle_count reg + (add_obstacles_batch reg data count).2 := by
  have h := addBatchAux_spec data count 0 reg
  unfold add_obstacles_batch get_obstacle_count
  rw [h]
  refine ⟨rfl, ?_, by simp⟩
  simp

/-- Claim C10: neither the visibility processor nor the collision detector
mutates the obstacle registry — as state transformers over the module state
they leave the stored obstacle list (hence the count) untouched; only
`initObstaclesSt` and `addObstaclesBatchSt` write it. -/
theorem visibility_readers_pure (T : TrigModel) (ok : Bool) (p : VisParams)
    (px py pr ph nx ny mw mh : ℚ) (s : GameState) :
    (processVisibleSt T ok p s).1.obstacles = s.obstacles ∧
      (checkCollisionSt px py pr ph nx ny mw mh s).1 = s := by
  exact ⟨rfl, rfl⟩

/-! ## Rasterizer theorems -/

/-- Claim C8: the band/step decision of `render_ground_performance` agrees
with the spec's table — rows with `y+1 ≤ 0.1*dstH` form the far band, rows
with `y+1 ≤ 0.6*dstH` the mid band, the rest the near band; with both flags
set the steps are far 5/4/4, mid 5/4/2, near 8/6/2 keyed on
rotating-or-tilting (`|tilt| > 1e-4`) and moving, otherwise `baseStep`;
always clamped to a minimum of 1. -/
theorem rowStep_eq_specStep (v : GroundView) (c : StepCtl) (y : ℕ) :
    rowStep v c y = specStep v c y := by
  simp only [rowStep, specStep]
  rw [show (0.1 + 0.5 : ℚ) = 6 / 10 by norm_num, show (0.1 : ℚ) = 1 / 10 by norm_num,
    show (0.0001 : ℚ) = 1 / 10000 by norm_num]
  split_ifs <;> rfl

/-- Claim C6: for positive destination and map dimensions,
`render_ground_quality` performs exactly one write per destination pixel (the
write indices are exactly `0, …, dstH*dstW - 1` in order), every written
pixel has alpha 255, and the sample for pixel `(y, x)` is read at the
truncated interpolated world coordinate reduced modulo `map_w`/`map_h` with
the result normalized into `[0, map_w)` and `[0, map_h)`; the write list is a
pure function of the inputs. -/
theorem render_quality_coverage (v : GroundView) (hw : 0 < v.ground_w)
    (hh : 0 < v.ground_h) (hmw : 0 < v.map_w) (hmh : 0 < v.map_h) :
    (render_ground_quality v).map Prod.fst = List.range (v.ground_h * v.ground_w) ∧
      (∀ e ∈ render_ground_quality v, e.2.a = 255) ∧
      (∀ y x, y < v.ground_h → x < v.ground_w →
        ∃ mx my : ℤ,
          0 ≤ mx ∧ mx < (v.map_w : ℤ) ∧
          mx ≡ truncQ (rowLX v y + (x : ℚ) * rowDX v y) [ZMOD (v.map_w : ℤ)] ∧
          0 ≤ my ∧ my < (v.map_h : ℤ) ∧
          my ≡ truncQ (rowLY v y + (x : ℚ) * rowDY v y) [ZMOD (v.map_h : ℤ)] ∧
          (y * v.ground_w + x,
            QPixel.mk (v.map_data ((my * (v.map_w : ℤ) + mx) * 4).toNat)
              (v.map_data (((my * (v.map_w : ℤ) + mx) * 4).toNat + 1))
              (v.map_data (((my * (v.map_w : ℤ) + mx) * 4).toNat + 2)) 255)
            ∈ render_ground_quality v) := by
  refine ⟨?_, ?_, ?_⟩
  · unfold render_ground_quality
    simp only [List.map_flatMap, List.map_map, Function.comp_def]
    exact range_mul_flatMap v.ground_h v.ground_w
  · intro e he
    unfold render_ground_quality at he
    rw [List.mem_flatMap] at he
    obtain ⟨y, hy, he⟩ := he
    rw [List.mem_map] at he
    obtain ⟨x, hx, rfl⟩ := he
    rfl
  · intro y x hy hx
    have hmwZ : (0 : ℤ) < (v.map_w : ℤ) := by exact_mod_cast hmw
    have hmhZ : (0 : ℤ) < (v.map_h : ℤ) := by exact_mod_cast hmh
    have h1 := fastMod_spec (truncQ (rowLX v y + (x : ℚ) * rowDX v y)) (v.map_w : ℤ) hmwZ
    have h2 := fastMod_spec (truncQ (rowLY v y + (x : ℚ) * rowDY v y)) (v.map_h : ℤ) hmhZ
    refine ⟨_, _, h1.1, h1.2.1, h1.2.2, h2.1, h2.2.1, h2.2.2, ?_⟩
    unfold render_ground_quality
    rw [List.mem_flatMap]
    refine ⟨y, List.mem_range.mpr hy, ?_⟩
    rw [List.mem_map]
    exact ⟨x, List.mem_range.mpr hx, rfl⟩

/-- Witness for `render_quality_coverage` on the concrete 1x1 view. -/
theorem render_quality_coverage_app :
    (render_ground_quality qvDemo).map Prod.fst = List.range (1 * 1) ∧
      (∀ e ∈ render_ground_quality qvDemo, e.2.a = 255) ∧
      (∀ y x : ℕ, y < 1 → x < 1 →
        ∃ mx my : ℤ,
          0 ≤ mx ∧ mx < ((1 : ℕ) : ℤ) ∧
          mx ≡ truncQ (rowLX qvDemo y + (x : ℚ) * rowDX qvDemo y) [ZMOD ((1 : ℕ) : ℤ)] ∧
          0 ≤ my ∧ my < ((1 : ℕ) : ℤ) ∧
          my ≡ truncQ (rowLY qvDemo y + (x : ℚ) * rowDY qvDemo y) [ZMOD ((1 : ℕ) : ℤ)] ∧
          (y * 1 + x,
            QPixel.mk (qvDemo.map_data ((my * ((1 : ℕ) : ℤ) + mx) * 4).toNat)
              (qvDemo.map_data (((my * ((1 : ℕ) : ℤ) + mx) * 4).toNat + 1))
              (qvDemo.map_data (((my * ((1 : ℕ) : ℤ) + mx) * 4).toNat + 2)) 255)
            ∈ render_ground_quality qvDemo) :=
  render_quality_coverage qvDemo (by norm_num [qvDemo]) (by norm_num [qvDemo])
    (by norm_num [qvDemo]) (by norm_num [qvDemo])

theorem lastComp_le (v : GroundView) (c : StepCtl) : ∀ y, lastComp v c y ≤ y := by
  intro y
  induction y with
  | zero => simp [lastComp]
  | succ n ih =>
    simp only [lastComp]
    split_ifs with h
    · exact Nat.le_refl _
    · exact Nat.le_succ_of_le ih

theorem isComputedRow_lastComp (v : GroundView) (c : StepCtl) :
    ∀ y, isComputedRow v c (lastComp v c y) := by
  intro y
  induction y with
  | zero => exact Or.inl rfl
  | succ n ih =>
    simp only [lastComp]
    split_ifs with h
    · exact h
    · exact ih

theorem lastComp_eq_self (v : GroundView) (c : StepCtl) (y : ℕ)
    (h : isComputedRow v c y) : lastComp v c y = y := by
  cases y with
  | zero => rfl
  | succ n => simp only [lastComp, if_pos h]

theorem lastComp_lastComp (v : GroundView) (c : StepCtl) (y : ℕ) :
    lastComp v c (lastComp v c y) = lastComp v c y :=
  lastComp_eq_self v c _ (isComputedRow_lastComp v c y)

theorem lastComp_maximal (v : GroundView) (c : StepCtl) :
    ∀ y j, lastComp v c y < j → j ≤ y → ¬ isComputedRow v c j := by
  intro y
  induction y with
  | zero => intro j h1 h2 _; omega
  | succ n ih =>
    intro j h1 h2
    by_cases hc : isComputedRow v c (n + 1)
    · rw [lastComp_eq_self v c _ hc] at h1
      intro _; omega
    · simp only [lastComp, if_neg hc] at h1
      rcases Nat.lt_or_ge j (n + 1) with hj | hj
      · exact ih j h1 (by omega)
      · have hje : j = n + 1 := by omega
        rw [hje]
        exact hc

theorem perfFold_inv (v : GroundView) (c : StepCtl) (n : ℕ) :
    (((List.range n).foldl (perfStep v c) ([], -1)).1.length = n) ∧
      (((List.range n).foldl (perfStep v c) ([], -1)).2 =
        if n = 0 then -1 else (lastComp v c (n - 1) : ℤ)) ∧
      (∀ j, j < n → ((List.range n).foldl (perfStep v c) ([], -1)).1.getD j [] =
        perfRow v (lastComp v c j) (rowStep v c (lastComp v c j))) := by
  induction n with
  | zero => exact ⟨rfl, rfl, fun j hj => absurd hj (by omega)⟩
  | succ n ih =>
    obtain ⟨hlen, hsnd, hrows⟩ := ih
    have hstep : (List.range (n + 1)).foldl (perfStep v c) ([], -1) =
        perfStep v c ((List.range n).foldl (perfStep v c) ([], -1)) n := by
      rw [List.range_succ, List.foldl_append, List.foldl_cons, List.foldl_nil]
    set st := (List.range n).foldl (perfStep v c) (([], -1) : List (List QPixel) × ℤ) with hst
    by_cases hcomp : isComputedRow v c n
    · have hcnd : ¬ (n ≠ 0 ∧ n % rowStep v c n ≠ 0 ∧ 0 ≤ st.2) := by
        rcases hcomp with h0 | hmod
        · exact fun hc => hc.1 h0
        · exact fun hc => hc.2.1 hmod
      have hps : perfStep v c st n = (st.1 ++ [perfRow v n (rowStep v c n)], (n : ℤ)) := by
        simp only [perfStep]
        rw [if_neg hcnd]
      have hlast : lastComp v c n = n := lastComp_eq_self v c n hcomp
      rw [hstep, hps]
      refine ⟨by simp [hlen], by simp [hlast], ?_⟩
      intro j hj
      rcases Nat.lt_or_ge j n with hjn | hjn
      · rw [List.getD_append _ _ _ _ (by rw [hlen]; exact hjn)]
        exact hrows j hjn
      · have hje : j = n := by omega
        subst hje
        rw [List.getD_append_right _ _ _ _ (Nat.le_of_eq hlen)]
        rw [hlen, Nat.sub_self, hlast]
        rfl
    · have hn0 : n ≠ 0 := by
        intro h0
        rw [h0] at hcomp
        exact hcomp (Or.inl rfl)
      obtain ⟨m, rfl⟩ := Nat.exists_eq_succ_of_ne_zero hn0
      have hsnd2 : st.2 = (lastComp v c m : ℤ) := by
        rw [hsnd, if_neg (Nat.succ_ne_zero m)]
        simp
      have hmod : (m + 1) % rowStep v c (m + 1) ≠ 0 := fun hm => hcomp (Or.inr hm)
      have hcnd : ((m + 1) ≠ 0 ∧ (m + 1) % rowStep v c (m + 1) ≠ 0 ∧ 0 ≤ st.2) :=
        ⟨Nat.succ_ne_zero m, hmod, by rw [hsnd2]; exact Int.natCast_nonneg _⟩
      have hps : perfStep v c st (m + 1) = (st.1 ++ [st.1.getD st.2.toNat []], st.2) := by
        simp only [perfStep]
        rw [if_pos hcnd]
      have hlastm : lastComp v c (m + 1) = lastComp v c m := by
        simp only [lastComp, if_neg hcomp]
      have hlc_lt : lastComp v c m < m + 1 := by
        have := lastComp_le v c m
        omega
      have hcopy : st.1.getD st.2.toNat [] =
          perfRow v (lastComp v c m) (rowStep v c (lastComp v c m)) := by
        rw [hsnd2, Int.toNat_ofNat]
        rw [hrows (lastComp v c m) hlc_lt, lastComp_lastComp]
      rw [hstep, hps]
      refine ⟨by simp [hlen], ?_, ?_⟩
      · rw [hsnd2]
        simp [hlastm]
      · intro j hj
        rcases Nat.lt_or_ge j (m + 1) with hjn | hjn
        · rw [List.getD_append _ _ _ _ (by rw [hlen]; exact hjn)]
          exact hrows j hjn
        · have hje : j = m + 1 := by omega
          subst hje
          rw [List.getD_append_right _ _ _ _ (Nat.le_of_eq hlen)]
          rw [hlen, Nat.sub_self, hlastm]
          exact hcopy

/-- Claim C7: `render_ground_performance` writes every destination row (the
result has exactly `ground_h` rows), and every row equals the most recently
recomputed row at or above it: a skipped row (`y > 0`, `y` not a multiple of
its band's step) is byte-for-byte the row `lastComp y`, which is recomputed
(`isComputedRow`), lies at or above `y`, and has no recomputed row between
itself and `y` — so a recomputed row and every skipped row of its run are
pixel-for-pixel identical. -/
theorem perf_row_duplication (v : GroundView) (c : StepCtl) :
    (render_ground_performance v c).length = v.ground_h ∧
      ∀ y, y < v.ground_h →
        (render_ground_performance v c).getD y [] =
            (render_ground_performance v c).getD (lastComp v c y) [] ∧
          lastComp v c y ≤ y ∧
          isComputedRow v c (lastComp v c y) ∧
          ∀ j, lastComp v c y < j → j ≤ y → ¬ isComputedRow v c j := by
  obtain ⟨hlen, _, hrows⟩ := perfFold_inv v c v.ground_h
  refine ⟨hlen, ?_⟩
  intro y hy
  have hlc_lt : lastComp v c y < v.ground_h := by
    have := lastComp_le v c y
    omega
  refine ⟨?_, lastComp_le v c y, isComputedRow_lastComp v c y, lastComp_maximal v c y⟩
  unfold render_ground_performance
  rw [hrows y hy, hrows (lastComp v c y) hlc_lt, lastComp_lastComp]

/-! ## Visibility processor: bubble-sort lemmas -/

theorem bpass_length : ∀ (m : ℕ) (l : List ProcessedObstacle),
    (bpass m l).length = l.length := by
  intro m
  induction m with
  | zero => intro l; simp [bpass]
  | succ m ih =>
    intro l
    match l with
    | [] => rfl
    | [a] => rfl
    | a :: b :: t =>
      simp only [bpass]
      split_ifs <;> simp [ih]

theorem bpass_perm : ∀ (m : ℕ) (l : List ProcessedObstacle), (bpass m l).Perm l := by
  intro m
  induction m with
  | zero =>
    intro l
    rw [show bpass 0 l = l by simp [bpass]]
  | succ m ih =>
    intro l
    match l with
    | [] => exact List.Perm.refl []
    | [a] => exact List.Perm.refl [a]
    | a :: b :: t =>
      simp only [bpass]
      split_ifs with h
      · exact ((ih (a :: t)).cons b).trans (List.Perm.swap a b t)
      · exact (ih (b :: t)).cons a

theorem bpass_filter (q : ℚ) : ∀ (m : ℕ) (l : List ProcessedObstacle),
    (bpass m l).filter (fun r => decide (r.dist_sq = q)) =
      l.filter (fun r => decide (r.dist_sq = q)) := by
  intro m
  induction m with
  | zero => intro l; rw [show bpass 0 l = l by simp [bpass]]
  | succ m ih =>
    intro l
    match l with
    | [] => rfl
    | [a] => rfl
    | a :: b :: t =>
      simp only [bpass]
      split_ifs with h
      · by_cases ha : a.dist_sq = q <;> by_cases hb : b.dist_sq = q
        · rw [ha, hb] at h
          exact absurd h (lt_irrefl q)
        · simp [List.filter_cons, ih, ha, hb]
        · simp [List.filter_cons, ih, ha, hb]
        · simp [List.filter_cons, ih, ha, hb]
      · simp only [List.filter_cons, ih]

theorem bpass_split : ∀ (m : ℕ) (l : List ProcessedObstacle), m < l.length →
    ∃ p x, bpass m l = p ++ x :: l.drop (m + 1) ∧ p.length = m ∧
      (p ++ [x]).Perm (l.take (m + 1)) ∧
      ∀ a ∈ l.take (m + 1), x.dist_sq ≤ a.dist_sq := by
  intro m
  induction m with
  | zero =>
    intro l hl
    match l with
    | a :: t =>
      refine ⟨[], a, rfl, rfl, by simp, ?_⟩
      intro a2 ha2
      simp only [List.take_succ_cons, List.take_zero, List.mem_singleton] at ha2
      subst ha2
      exact le_refl _
  | succ m ih =>
    intro l hl
    match l with
    | [a] => simp at hl
    | a :: b :: t =>
      have hm : m < (a :: t).length ∧ m < (b :: t).length := by
        simp only [List.length_cons] at hl ⊢
        omega
      simp only [bpass]
      split_ifs with h
      · obtain ⟨p, x, heq, hplen, hperm, hmin⟩ := ih (a :: t) hm.1
        refine ⟨b :: p, x, ?_, by simp [hplen], ?_, ?_⟩
        · simp only [List.drop_succ_cons] at heq ⊢
          rw [heq, List.cons_append]
        · simp only [List.take_succ_cons] at hperm ⊢
          exact (hperm.cons b).trans (List.Perm.swap a b _)
        · intro a2 ha2
          simp only [List.take_succ_cons, List.mem_cons] at ha2 hmin
          rcases ha2 with rfl | rfl | ha2
          · exact hmin a2 (Or.inl rfl)
          · exact le_of_lt (lt_of_le_of_lt (hmin a (Or.inl rfl)) h)
          · exact hmin a2 (Or.inr ha2)
      · obtain ⟨p, x, heq, hplen, hperm, hmin⟩ := ih (b :: t) hm.2
        refine ⟨a :: p, x, ?_, by simp [hplen], ?_, ?_⟩
        · simp only [List.drop_succ_cons] at heq ⊢
          rw [heq, List.cons_append]
        · simp only [List.take_succ_cons] at hperm ⊢
          exact hperm.cons a
        · intro a2 ha2
          simp only [List.take_succ_cons, List.mem_cons] at ha2 hmin
          rcases ha2 with rfl | rfl | ha2
          · exact le_trans (hmin b (Or.inl rfl)) (le_of_not_lt h)
          · exact hmin a2 (Or.inl rfl)
          · exact hmin a2 (Or.inr ha2)

theorem bsortAux_sorted : ∀ (k : ℕ) (l : List ProcessedObstacle), k < l.length →
    List.Sorted (fun a b : ProcessedObstacle => b.dist_sq ≤ a.dist_sq) (l.drop (k + 1)) →
    (∀ b ∈ l.drop (k + 1), ∀ a ∈ l.take (k + 1), b.dist_sq ≤ a.dist_sq) →
    List.Sorted (fun a b : ProcessedObstacle => b.dist_sq ≤ a.dist_sq) (bsortAux k l) := by
  intro k
  induction k with
  | zero =>
    intro l hl hsort hdom
    match l with
    | a :: t =>
      refine List.sorted_cons.mpr ⟨?_, ?_⟩
      · intro b hb
        exact hdom b (by simpa using hb) a (by simp)
      · simpa using hsort
  | succ k ih =>
    intro l hl hsort hdom
    obtain ⟨p, x, heq, hplen, hperm, hmin⟩ := bpass_split (k + 1) l hl
    have hlen2 : (bpass (k + 1) l).length = l.length := bpass_length _ _
    have hxmem : x ∈ l.take (k + 1 + 1) := hperm.mem_iff.mp (by simp)
    show List.Sorted _ (bsortAux k (bpass (k + 1) l))
    apply ih (bpass (k + 1) l) (by omega)
    · rw [heq, List.drop_left' hplen]
      refine List.sorted_cons.mpr ⟨?_, hsort⟩
      intro b hb
      exact hdom b hb x hxmem
    · rw [heq, List.drop_left' hplen, List.take_left' hplen]
      intro b hb a ha
      have haL : a ∈ l.take (k + 1 + 1) := hperm.mem_iff.mp (List.mem_append_left _ ha)
      rcases List.mem_cons.mp hb with rfl | hb2
      · exact hmin a haL
      · exact hdom b hb2 a haL

theorem bsort_sorted (l : List ProcessedObstacle) :
    List.Sorted (fun a b : ProcessedObstacle => b.dist_sq ≤ a.dist_sq) (bsort l) := by
  match l with
  | [] => exact List.sorted_nil
  | a :: t =>
    have hlen : (a :: t).length - 1 = t.length := by simp
    unfold bsort
    rw [hlen]
    apply bsortAux_sorted t.length (a :: t) (by simp)
    · rw [List.drop_eq_nil_of_le (by simp)]
      exact List.sorted_nil
    · intro b hb
      rw [List.drop_eq_nil_of_le (by simp)] at hb
      exact absurd hb (List.not_mem_nil b)

theorem bsortAux_perm : ∀ (k : ℕ) (l : List ProcessedObstacle), (bsortAux k l).Perm l := by
  intro k
  induction k with
  | zero => intro l; exact List.Perm.refl l
  | succ k ih =>
    intro l
    exact (ih (bpass (k + 1) l)).trans (bpass_perm (k + 1) l)

theorem bsort_perm (l : List ProcessedObstacle) : (bsort l).Perm l := bsortAux_perm _ l

theorem bsortAux_filter (q : ℚ) : ∀ (k : ℕ) (l : List ProcessedObstacle),
    (bsortAux k l).filter (fun r => decide (r.dist_sq = q)) =
      l.filter (fun r => decide (r.dist_sq = q)) := by
  intro k
  induction k with
  | zero => intro l; rfl
  | succ k ih =>
    intro l
    rw [show bsortAux (k + 1) l = bsortAux k (bpass (k + 1) l) from rfl, ih, bpass_filter]

theorem bsort_filter (q : ℚ) (l : List ProcessedObstacle) :
    (bsort l).filter (fun r => decide (r.dist_sq = q)) =
      l.filter (fun r => decide (r.dist_sq = q)) := bsortAux_filter q _ l

/-! ## Visibility processor: scan lemmas -/

theorem acceptCand_iff (T : TrigModel) (p : VisParams) (c : TileCand) :
    acceptCand T p c = true ↔
      (candDistSq p c < p.max_render_distance * p.max_render_distance ∧
        angleDiff T p c ≤ p.fov / 2 + 0.5 ∧ candT T p c > 0.5) := by
  simp [acceptCand]

theorem collectVisible_eq_take (T : TrigModel) (p : VisParams) :
    ∀ (l : List TileCand) (k : ℕ),
      collectVisible T p k l = ((l.filter (acceptCand T p)).map (mkRec T p)).take k := by
  intro l
  induction l with
  | nil => intro k; simp [collectVisible]
  | cons c cs ih =>
    intro k
    by_cases hacc : acceptCand T p c = true
    · cases k with
      | zero => simp [collectVisible, hacc]
      | succ k => simp [collectVisible, hacc, ih]
    · simp [collectVisible, hacc, ih]

theorem collectVisible_sound (T : TrigModel) (p : VisParams) (k : ℕ) (l : List TileCand)
    (r : ProcessedObstacle) (hr : r ∈ collectVisible T p k l) :
    ∃ c ∈ l, acceptCand T p c = true ∧ r = mkRec T p c := by
  rw [collectVisible_eq_take] at hr
  have hr2 := List.mem_of_mem_take hr
  rw [List.mem_map] at hr2
  obtain ⟨c, hc, rfl⟩ := hr2
  rw [List.mem_filter] at hc
  exact ⟨c, hc.1, hc.2, rfl⟩

theorem mem_take_filter_map_of_countP {α β : Type} (pr : α → Bool) (f : α → β) :
    ∀ (l : List α) (cap k : ℕ) (hk : k < l.length),
      pr (l.get ⟨k, hk⟩) = true →
      (l.take k).countP pr < cap →
      f (l.get ⟨k, hk⟩) ∈ ((l.filter pr).map f).take cap := by
  intro l
  induction l with
  | nil => intro cap k hk _ _; exact absurd hk (by simp)
  | cons a t ih =>
    intro cap k hk hpr hcnt
    cases k with
    | zero =>
      cases cap with
      | zero => exact absurd hcnt (by simp)
      | succ cap =>
        have hpr2 : pr a = true := hpr
        rw [List.filter_cons, if_pos hpr2, List.map_cons, List.take_succ_cons]
        exact List.mem_cons_self _ _
    | succ k =>
      have hk2 : k < t.length := by simpa using hk
      have hpr2 : pr (t.get ⟨k, hk2⟩) = true := hpr
      show f (t.get ⟨k, hk2⟩) ∈ ((List.filter pr (a :: t)).map f).take cap
      by_cases hpa : pr a = true
      · have hcnt2 : ((a :: t).take (k + 1)).countP pr = (t.take k).countP pr + 1 := by
          simp [List.take_succ_cons, List.countP_cons, hpa]
        cases cap with
        | zero => exact absurd hcnt (by simp)
        | succ cap =>
          have hlt : (t.take k).countP pr < cap := by
            rw [hcnt2] at hcnt
            omega
          rw [List.filter_cons, if_pos hpa, List.map_cons, List.take_succ_cons]
          exact List.mem_cons_of_mem _ (ih cap k hk2 hpr2 hlt)
      · have hcnt2 : ((a :: t).take (k + 1)).countP pr = (t.take k).countP pr := by
          simp [List.take_succ_cons, List.countP_cons, hpa]
        rw [List.filter_cons, if_neg hpa]
        refine ih cap k hk2 hpr2 ?_
        rw [hcnt2] at hcnt
        exact hcnt

theorem process_eq_bsort (T : TrigModel) (reg : List Obstacle) (p : VisParams)
    (hreg : reg ≠ []) :
    process_visible_obstacles T true reg p =
      bsort (collectVisible T p MAX_PROCESSED (tileCands p reg)) := by
  unfold process_visible_obstacles
  rw [if_neg (by simp), if_neg (fun h => hreg (List.length_eq_zero.mp h))]

/-! ## Visibility claim theorems -/

/-- Claim C1: with a non-empty registry and a non-null output buffer, a
record is emitted for a toroidal image exactly when the three source filters
accept it, as long as the `MAX_PROCESSED` cap has not yet been reached.
Soundness: every returned record is `mkRec` of some candidate in the
obstacle-by-tile-offset scan list satisfying squared distance
`< maxRenderDistance²`, angular difference (`angleDiff`, the shortest-arc
fold at pi of `atan2` minus the heading) `≤ fov/2 + 0.5`, and forward
projection `> 0.5`.  Completeness: every accepted candidate preceded by
fewer than `MAX_PROCESSED` accepted candidates contributes its record to the
output.  In particular every returned record has forward projection
`> 0.5` — an image at or behind the near clip produces no record at all. -/
theorem vis_emission_iff (T : TrigModel) (ok : Bool) (reg : List Obstacle) (p : VisParams)
    (hok : ok = true) (hreg : reg ≠ []) :
    (∀ r ∈ process_visible_obstacles T ok reg p,
        ∃ c ∈ tileCands p reg,
          r = mkRec T p c ∧
          candDistSq p c < p.max_render_distance * p.max_render_distance ∧
          angleDiff T p c ≤ p.fov / 2 + 0.5 ∧
          candT T p c > 0.5) ∧
      (∀ (k : ℕ) (hk : k < (tileCands p reg).length),
        acceptCand T p ((tileCands p reg).get ⟨k, hk⟩) = true →
        ((tileCands p reg).take k).countP (acceptCand T p) < MAX_PROCESSED →
        mkRec T p ((tileCands p reg).get ⟨k, hk⟩) ∈ process_visible_obstacles T ok reg p) ∧
      (∀ r ∈ process_visible_obstacles T ok reg p,
        r.dx * T.cos p.camera_angle + r.dy * T.sin p.camera_angle > 0.5) := by
  subst hok
  rw [process_eq_bsort T reg p hreg]
  have hsound : ∀ r ∈ bsort (collectVisible T p MAX_PROCESSED (tileCands p reg)),
      ∃ c ∈ tileCands p reg, acceptCand T p c = true ∧ r = mkRec T p c := by
    intro r hr
    exact collectVisible_sound T p MAX_PROCESSED (tileCands p reg) r
      ((bsort_perm _).mem_iff.mp hr)
  refine ⟨?_, ?_, ?_⟩
  · intro r hr
    obtain ⟨c, hc, hacc, hrec⟩ := hsound r hr
    obtain ⟨h1, h2, h3⟩ := (acceptCand_iff T p c).mp hacc
    exact ⟨c, hc, hrec, h1, h2, h3⟩
  · intro k hk hacc hcnt
    rw [(bsort_perm _).mem_iff, collectVisible_eq_take]
    exact mem_take_filter_map_of_countP (acceptCand T p) (mkRec T p)
      (tileCands p reg) MAX_PROCESSED k hk hacc hcnt
  · intro r hr
    obtain ⟨c, _, hacc, hrec⟩ := hsound r hr
    obtain ⟨_, _, h3⟩ := (acceptCand_iff T p c).mp hacc
    rw [hrec]
    exact h3

/-- Claim C2: the returned record list is sorted non-increasing in `dist_sq`
(farthest first), it is a permutation of the scanned record list (also when
the scan stopped early at the `MAX_PROCESSED` cap), and records with equal
`dist_sq` keep their scan order: filtering the output by any fixed `dist_sq`
value gives exactly the corresponding subsequence of the scan list. -/
theorem vis_sorted_stable (T : TrigModel) (ok : Bool) (reg : List Obstacle) (p : VisParams)
    (hok : ok = true) (hreg : reg ≠ []) :
    List.Sorted (fun a b : ProcessedObstacle => b.dist_sq ≤ a.dist_sq)
        (process_visible_obstacles T ok reg p) ∧
      (process_visible_obstacles T ok reg p).Perm
        (collectVisible T p MAX_PROCESSED (tileCands p reg)) ∧
      ∀ q : ℚ,
        (process_visible_obstacles T ok reg p).filter (fun r => decide (r.dist_sq = q)) =
          (collectVisible T p MAX_PROCESSED (tileCands p reg)).filter
            (fun r => decide (r.dist_sq = q)) := by
  subst hok
  rw [process_eq_bsort T reg p hreg]
  exact ⟨bsort_sorted _, bsort_perm _, fun q => bsort_filter q _⟩

/-- Claim C3: a returned record has `is_between` (the occluding-player flag)
set exactly when the player is below the obstacle's height and the image's
forward-axis distance lies strictly between 0.5 and `player_t`, the
wrap-corrected player position projected onto the camera forward axis. -/
theorem vis_occlusion_flag (T : TrigModel) (ok : Bool) (reg : List Obstacle) (p : VisParams)
    (hok : ok = true) (hreg : reg ≠ []) :
    ∀ r ∈ process_visible_obstacles T ok reg p,
      ∃ c ∈ tileCands p reg,
        r = mkRec T p c ∧
        (r.is_between = true ↔
          (p.player_height < c.obs.height ∧ 0.5 < candT T p c ∧
            candT T p c < playerT T p)) := by
  subst hok
  rw [process_eq_bsort T reg p hreg]
  intro r hr
  obtain ⟨c, hc, hacc, hrec⟩ := collectVisible_sound T p MAX_PROCESSED (tileCands p reg) r
    ((bsort_perm _).mem_iff.mp hr)
  refine ⟨c, hc, hrec, ?_⟩
  rw [hrec]
  show (decide (p.player_height < c.obs.height ∧ candT T p c > 0.5 ∧
    candT T p c < playerT T p) = true) ↔ _
  rw [decide_eq_true_eq]

/-- Witness for `vis_emission_iff` on the concrete one-obstacle scene. -/
theorem vis_emission_iff_app :
    (∀ r ∈ process_visible_obstacles trigDemo true regDemo visDemo,
        ∃ c ∈ tileCands visDemo regDemo,
          r = mkRec trigDemo visDemo c ∧
          candDistSq visDemo c <
            visDemo.max_render_distance * visDemo.max_render_distance ∧
          angleDiff trigDemo visDemo c ≤ visDemo.fov / 2 + 0.5 ∧
          candT trigDemo visDemo c > 0.5) ∧
      (∀ (k : ℕ) (hk : k < (tileCands visDemo regDemo).length),
        acceptCand trigDemo visDemo ((tileCands visDemo regDemo).get ⟨k, hk⟩) = true →
        ((tileCands visDemo regDemo).take k).countP (acceptCand trigDemo visDemo) <
          MAX_PROCESSED →
        mkRec trigDemo visDemo ((tileCands visDemo regDemo).get ⟨k, hk⟩) ∈
          process_visible_obstacles trigDemo true regDemo visDemo) ∧
      (∀ r ∈ process_visible_obstacles trigDemo true regDemo visDemo,
        r.dx * trigDemo.cos visDemo.camera_angle +
          r.dy * trigDemo.sin visDemo.camera_angle > 0.5) :=
  vis_emission_iff trigDemo true regDemo visDemo rfl (by simp [regDemo])

/-- Witness for `vis_sorted_stable` on the concrete one-obstacle scene. -/
theorem vis_sorted_stable_app :
    List.Sorted (fun a b : ProcessedObstacle => b.dist_sq ≤ a.dist_sq)
        (process_visible_obstacles trigDemo true regDemo visDemo) ∧
      (process_visible_obstacles trigDemo true regDemo visDemo).Perm
        (collectVisible trigDemo visDemo MAX_PROCESSED (tileCands visDemo regDemo)) ∧
      ∀ q : ℚ,
        (process_visible_obstacles trigDemo true regDemo visDemo).filter
            (fun r => decide (r.dist_sq = q)) =
          (collectVisible trigDemo visDemo MAX_PROCESSED
              (tileCands visDemo regDemo)).filter (fun r => decide (r.dist_sq = q)) :=
  vis_sorted_stable trigDemo true regDemo visDemo rfl (by simp [regDemo])

/-- Witness for `vis_occlusion_flag` on the concrete one-obstacle scene. -/
theorem vis_occlusion_flag_app :
    regDemo ≠ [] ∧
      ∀ r ∈ process_visible_obstacles trigDemo true regDemo visDemo,
        ∃ c ∈ tileCands visDemo regDemo,
          r = mkRec trigDemo visDemo c ∧
          (r.is_between = true ↔
            (visDemo.player_height < c.obs.height ∧ 0.5 < candT trigDemo visDemo c ∧
              candT trigDemo visDemo c < playerT trigDemo visDemo)) :=
  ⟨by simp [regDemo], vis_occlusion_flag trigDemo true regDemo visDemo rfl (by simp [regDemo])⟩
